import Mathlib

/-!
Verification of the word-extraction and verdict-correlation engine of the
kodespel repository (src/kodespel/kodespel.py) against its specification.

The Python code is shallowly embedded: each relevant function is translated
into an executable Lean definition operating on List Char / String, with
stateful parts made explicit.  Regular expressions are embedded as the
specific matchers they denote on this pattern, following Python re
semantics (leftmost scan, alternatives tried left to right, greedy
repetition with backtracking).
-/

namespace Kodespel

/-! ### Tokenizer: CodeChecker._word_re and split_line

The regex has three alternatives, tried in this order at every position:
  case 1: [A-Za-z]+(?:<apostrophe>[A-Za-z]+)+   words with internal apostrophes
  case 2: [A-Z]?[a-z]+                          ordinary capitalized words
  case 3: [A-Z]+(?![a-z])                       uppercase acronym runs
findall scans left to right, emitting non-overlapping matches and advancing
one character when no alternative matches.
-/

/-- The apostrophe character (code point 39), kept symbolic. -/
def apoChar : Char := Char.ofNat 39

/-- ASCII letter, the character class [A-Za-z]. -/
def isLetterB (c : Char) : Bool := c.isUpper || c.isLower

/-- Greedy match of the repetition (?:<apostrophe>[A-Za-z]+)+ of case 1:
returns the consumed characters and the remainder.  Each iteration needs an
apostrophe followed by at least one letter; the repetition is greedy and
nothing follows it in the pattern, so no backtracking can shrink it. -/
def apoGroupsAux : Nat → List Char → List Char × List Char
  | _, [] => ([], [])
  | 0, cs => ([], cs)
  | fuel + 1, c :: ds =>
    if c = apoChar then
      let ls := ds.takeWhile isLetterB
      if ls.isEmpty then ([], c :: ds)
      else
        let p := apoGroupsAux fuel (ds.drop ls.length)
        (c :: (ls ++ p.1), p.2)
    else ([], c :: ds)

/-- Greedy match of the apostrophe-group repetition, with fuel fixed to the
input length (each iteration consumes at least two characters, so the fuel
never runs out first). -/
def apoGroups (cs : List Char) : List Char × List Char :=
  apoGroupsAux cs.length cs

/-- Case 1 of the word regex: [A-Za-z]+(?:<apostrophe>[A-Za-z]+)+.
The leading letter run is maximal (shrinking it by backtracking only
exposes another letter, never an apostrophe, so the maximal run is the only
candidate), and at least one apostrophe group must follow. -/
def matchApo (cs : List Char) : Option (List Char × List Char) :=
  let ls := cs.takeWhile isLetterB
  if ls.isEmpty then none
  else
    let p := apoGroups (cs.drop ls.length)
    if p.1.isEmpty then none else some (ls ++ p.1, p.2)

/-- Case 2 of the word regex: [A-Z]?[a-z]+.  Either a lowercase run, or one
uppercase letter directly followed by a lowercase run (if no lowercase
letter follows the uppercase one, backtracking the optional [A-Z] to empty
also fails, since the uppercase letter is not in [a-z]). -/
def matchWord (cs : List Char) : Option (List Char × List Char) :=
  match cs with
  | [] => none
  | c :: rest =>
    if c.isLower then
      let ls := rest.takeWhile Char.isLower
      some (c :: ls, rest.drop ls.length)
    else if c.isUpper then
      match rest with
      | d :: _ =>
        if d.isLower then
          let ls := rest.takeWhile Char.isLower
          some (c :: ls, rest.drop ls.length)
        else none
      | [] => none
    else none

/-- Case 3 of the word regex: [A-Z]+(?![a-z]).  The uppercase run is
greedy; if the character after it is lowercase the engine backtracks one
character, which always satisfies the lookahead (the dropped character is
uppercase).  A single uppercase letter followed by a lowercase letter
fails. -/
def matchAcro (cs : List Char) : Option (List Char × List Char) :=
  let us := cs.takeWhile Char.isUpper
  if us.isEmpty then none
  else
    match cs.drop us.length with
    | d :: rest =>
      if d.isLower then
        if 2 ≤ us.length then some (us.dropLast, cs.drop (us.length - 1))
        else none
      else some (us, d :: rest)
    | [] => some (us, [])

/-- Try the three alternatives of _word_re in order at the current
position. -/
def tryMatch (cs : List Char) : Option (List Char × List Char) :=
  match matchApo cs with
  | some r => some r
  | none =>
    match matchWord cs with
    | some r => some r
    | none => matchAcro cs

/-- The scan loop of re.findall: emit a match and continue after it, or
advance one character.  Fuel bounds the iteration count; every step
consumes at least one character, so fuel equal to the input length is
enough. -/
def findallAux : Nat → List Char → List (List Char)
  | 0, _ => []
  | _ + 1, [] => []
  | fuel + 1, c :: rest =>
    match tryMatch (c :: rest) with
    | some (tok, r) => tok :: findallAux fuel r
    | none => findallAux fuel rest

/-- CodeChecker.split_line: return self._word_re.findall(line). -/
def split_line (s : String) : List String :=
  (findallAux s.toList.length s.toList).map (fun t => String.mk t)

/-- The line of claim C2, with the apostrophe written symbolically. -/
def c2Input : String :=
  String.mk (("Mr. O").toList ++ apoChar :: ("Reilly & Sons Ltd.").toList)

/-- The single token OReilly-with-apostrophe that case 1 of the regex
produces. -/
def oReilly : String := String.mk (('O' :: apoChar :: ("Reilly").toList))

/-! ### Word index: CodeChecker._extract_words and _send_words

The Python code builds a defaultdict(list) mapping each word to the
1-based line numbers of its occurrences.  A Python dict preserves key
insertion order, so it is embedded as an association list in which a new
key is appended at the end and an existing key keeps its position. -/

/-- The WordIndex: association list from word text to its occurrence line
numbers, in key insertion order (the embedding of the Python dict). -/
abbrev Loc := List (String × List Nat)

/-- locations[word].append(line_num) on a defaultdict(list): append the
line number to the existing entry, or append a new key at the end. -/
def addWord : Loc → String → Nat → Loc
  | [], w, n => [(w, [n])]
  | (k, v) :: rest, w, n =>
    if k = w then (k, v ++ [n]) :: rest
    else (k, v) :: addWord rest w n

/-- The inner loop of _extract_words: for word in split_line(line), if not
ignore(word), record it under the current line number. -/
def addLineTokens (ign : String → Bool) (locs : Loc) (ws : List String)
    (n : Nat) : Loc :=
  ws.foldl (fun lo w => if ign w then lo else addWord lo w n) locs

/-- The outer loop of _extract_words over enumerate(file), with 1-based
line numbers. -/
def extract_aux (ign : String → Bool) : Nat → List String → Loc → Loc
  | _, [], locs => locs
  | n, l :: rest, locs =>
    extract_aux ign (n + 1) rest (addLineTokens ign locs (split_line l) n)

/-- CodeChecker._extract_words: find all distinct words of the file, each
with its list of 1-based line numbers. -/
def extract_words (ign : String → Bool) (lines : List String) : Loc :=
  extract_aux ign 1 lines []

/-- The sequence of words _send_words submits to ispell: iterating the
locations dict yields its keys in insertion order. -/
def sent_words (locs : Loc) : List String := locs.map Prod.fst

/-- Append a key if it is not already present (the effect one token has on
the key sequence of the index). -/
def insertKey (ks : List String) (w : String) : List String :=
  if w ∈ ks then ks else ks ++ [w]

/-- First-occurrence subsequence of a word stream: every word once, in the
order each word was first seen. -/
def firstOcc (ws : List String) : List String := ws.foldl insertKey []

/-- The stream of tokens that survive the ignore filter, in the order the
file scan meets them. -/
def token_stream (ign : String → Bool) (lines : List String) : List String :=
  (lines.map (fun l => (split_line l).filter (fun w => !ign w))).flatten

/-! ### Ignore filter: CodeChecker.set_ignore

set_ignore joins the patterns into one alternation regex, compiled once
with re.IGNORECASE, and stores its search method as self.ignore; a word is
then dropped when the regex matches anywhere inside it.  Patterns are
embedded as literal strings, so a match of the alternation is a
case-insensitive substring match of some pattern. -/

/-- Python str.lower(), restricted to the basic latin range (all inputs
of interest are ASCII): lower every character of the character list. -/
def pyLower (s : String) : String := String.mk (s.toList.map Char.toLower)

/-- Contiguous substring test on character lists. -/
def containsSub (hay needle : List Char) : Bool :=
  match hay with
  | [] => needle.isEmpty
  | _ :: t => needle.isPrefixOf hay || containsSub t needle

/-- The self.ignore predicate built by set_ignore: with no patterns it is
the constant false lambda from __init__; otherwise a word is ignored when
some literal pattern occurs in it, compared case-insensitively
(re.IGNORECASE search of the alternation). -/
def ignoreOf (pats : List String) (w : String) : Bool :=
  if pats.isEmpty then false
  else pats.any (fun p => containsSub (pyLower w).toList (pyLower p).toList)

/-! ### Reconciliation: CodeChecker._check

_check consumes the ispell report, a list of pairs (bad_word, guesses),
and the locations dict.  For each pair it first applies the case-fold
suppression test; then locations[bad_word] is looked up (raising KeyError
when the key is absent, embedded as the error case of Except); in unique
mode del line_nums[1:] truncates the looked-up list in place, mutating the
dict, so the index is threaded through the fold; finally errors.sort()
sorts the (line, word, guesses) tuples in Python tuple order, which is the
lexicographic order on the three components. -/

/-- One error record (line number, word text, suggestions), the tuple
appended by _check. -/
abbrev ErrRec := Nat × String × List String

/-- The ispell report: list of (bad_word, guesses) pairs. -/
abbrev Report := List (String × List String)

/-- Dictionary lookup locations[w] (first matching key). -/
def lookupLoc : Loc → String → Option (List Nat)
  | [], _ => none
  | (k, v) :: rest, w => if k = w then some v else lookupLoc rest w

/-- In-place replacement of the value stored under an existing key; on an
absent key the index is unchanged (the embedding of mutating the list
object the dict already holds). -/
def updateLoc : Loc → String → List Nat → Loc
  | [], _, _ => []
  | (k, v) :: rest, w, nv =>
    if k = w then (k, nv) :: rest else (k, v) :: updateLoc rest w nv

/-- The suppression test of _check: bad_word.lower() appears among the
lowercased guesses. -/
def case_fold_hit (w : String) (gs : List String) : Bool :=
  (gs.map pyLower).contains (pyLower w)

/-- The body of the report loop of _check for one (bad_word, guesses)
pair: suppression, KeyError on a missing key, the unique-mode in-place
truncation del line_nums[1:], and one appended record per remaining line
number. -/
def check_step (unique : Bool) (locs : Loc) (e : String × List String) :
    Except Unit (List ErrRec × Loc) :=
  if case_fold_hit e.1 e.2 then .ok ([], locs)
  else
    match lookupLoc locs e.1 with
    | none => .error ()
    | some lineNums =>
      if unique then
        .ok ((lineNums.take 1).map (fun n => (n, e.1, e.2)),
             updateLoc locs e.1 (lineNums.take 1))
      else .ok (lineNums.map (fun n => (n, e.1, e.2)), locs)

/-- The report loop of _check, threading the mutated locations dict and
concatenating the appended records. -/
def check_fold (unique : Bool) : Report → Loc → Except Unit (List ErrRec × Loc)
  | [], locs => .ok ([], locs)
  | e :: rest, locs =>
    match check_step unique locs e with
    | .error u => .error u
    | .ok (rs, locs1) =>
      match check_fold unique rest locs1 with
      | .error u => .error u
      | .ok (rs1, locs2) => .ok (rs ++ rs1, locs2)

/-- Sort key of a record: Python compares the tuples
(line_num, bad_word, guesses) lexicographically, ints first, then the word
text, then the suggestion list.  Python compares strings as sequences of
code points, which is the lexicographic order on their character lists. -/
def recKey (r : ErrRec) : ℕ ×ₗ ((List Char) ×ₗ (List (List Char))) :=
  toLex (r.1, toLex (r.2.1.toList, r.2.2.map String.toList))

/-- The total order errors.sort() sorts by. -/
def recLe (a b : ErrRec) : Prop := recKey a ≤ recKey b

instance : DecidableRel recLe :=
  fun a b => inferInstanceAs (Decidable (recKey a ≤ recKey b))

instance : IsTotal ErrRec recLe :=
  ⟨fun a b => le_total (recKey a) (recKey b)⟩

instance : IsTrans ErrRec recLe :=
  ⟨fun _ _ _ h1 h2 => le_trans h1 h2⟩

/-- errors.sort(): a stable sort by the total tuple order; since the order
is total and equal elements are identical tuples, insertion sort produces
the same list as the Python sort. -/
def sortRecs (rs : List ErrRec) : List ErrRec := List.insertionSort recLe rs

/-- CodeChecker._check: run the report loop, then errors.sort(), returning
the sorted records together with the (possibly mutated) locations dict. -/
def check_words (unique : Bool) (report : Report) (locs : Loc) :
    Except Unit (List ErrRec × Loc) :=
  match check_fold unique report locs with
  | .error u => .error u
  | .ok (rs, locs1) => .ok (sortRecs rs, locs1)

/-! ### Oracle protocol client: SpellChecker.check

check reads reply lines from ispell until readline returns an empty
string (end of stream).  For each line, code = line[0] and
extra = line[1:-1] (the final newline is stripped).  A line starting with
the ampersand or question-mark code is destructured as
(orig, count, offset, extra) = extra.split(None, 3), count is converted
with int(), and the candidate list is extra.split(two-char
comma-space separator); a failure of the destructuring or of int() is a
ValueError, embedded as the error case.  A line starting with the hash
code takes orig = extra.split()[0] (IndexError when extra has no fields).
Lines with any other first character produce nothing. -/

/-- The whitespace class of Python str.split(): space, tab, newline,
carriage return, vertical tab (11), form feed (12). -/
def isPySpace (c : Char) : Bool :=
  c = ' ' || c = '\t' || c = '\n' || c = '\r' ||
    c = Char.ofNat 11 || c = Char.ofNat 12

/-- extra = line[1:-1]: drop the code character and the trailing
newline. -/
def pyStrip1 (line : List Char) : List Char := (line.drop 1).dropLast

/-- Python str.split(None, maxsplit): skip whitespace; at maxsplit zero the
whole remainder (after the skip) is the final field, otherwise take a
maximal non-whitespace field and continue. -/
def py_split_ws : Nat → List Char → List (List Char)
  | 0, cs =>
    if (cs.dropWhile isPySpace).isEmpty then []
    else [cs.dropWhile isPySpace]
  | ms1 + 1, cs =>
    if (cs.dropWhile isPySpace).isEmpty then []
    else
      (cs.dropWhile isPySpace).takeWhile (fun c => !isPySpace c) ::
        py_split_ws ms1
          ((cs.dropWhile isPySpace).dropWhile (fun c => !isPySpace c))

/-- Python str.split(sep) for the two-character comma-space separator:
split at every non-overlapping occurrence, left to right, keeping empty
pieces. -/
def py_split_sep_aux : Nat → List Char → List (List Char)
  | _, [] => [[]]
  | 0, cs => [cs]
  | fuel + 1, c :: rest =>
    if c = ',' && rest.head? = some ' ' then
      [] :: py_split_sep_aux fuel (rest.drop 1)
    else
      match py_split_sep_aux fuel rest with
      | h :: t => (c :: h) :: t
      | [] => [[c]]

/-- Python str.split(sep) for the two-character comma-space separator,
with fuel fixed to the input length (each step consumes at least one
character). -/
def py_split_sep (cs : List Char) : List (List Char) :=
  py_split_sep_aux cs.length cs

/-- Python int() accepts the count field exactly when it is an optional
sign followed by at least one digit (the field holds no whitespace, having
come from a whitespace split). -/
def py_is_int (cs : List Char) : Bool :=
  let cs1 := match cs with
    | c :: rest => if c = '+' || c = '-' then rest else cs
    | [] => []
  !cs1.isEmpty && cs1.all Char.isDigit

/-- One reply line of SpellChecker.check: ok none when the line is
ignored, ok some (orig, guesses) for a parsed verdict, error for a
ValueError or IndexError escaping check. -/
def parse_line (line : List Char) : Except Unit (Option (List Char × List (List Char))) :=
  match line with
  | [] => .ok none
  | c :: _ =>
    let extra := pyStrip1 line
    if c = '&' || c = '?' then
      match py_split_ws 3 extra with
      | [orig, count, _offset, rest] =>
        if py_is_int count then .ok (some (orig, py_split_sep rest))
        else .error ()
      | _ => .error ()
    else if c = '#' then
      let cs1 := extra.dropWhile isPySpace
      if cs1.isEmpty then .error ()
      else .ok (some (cs1.takeWhile (fun x => !isPySpace x), []))
    else .ok none

/-- SpellChecker.check on the sequence of readline results: read until the
first empty line (end of stream), parse every line, collect the verdicts
in order. -/
def spell_check : List (List Char) → Except Unit (List (List Char × List (List Char)))
  | [] => .ok []
  | line :: rest =>
    if line.isEmpty then .ok []
    else
      match parse_line line with
      | .error u => .error u
      | .ok v =>
        match spell_check rest with
        | .error u => .error u
        | .ok vs => .ok (match v with | some x => x :: vs | none => vs)

/-- Concatenation of candidate words with the comma-space separator, the
inverse image of the candidate-list split (spec-side construction used to
state C6). -/
def interSep : List (List Char) → List Char
  | [] => []
  | [g] => g
  | g :: gs => g ++ ',' :: ' ' :: interSep gs

/-- Whether a character list holds an occurrence of the comma-space
separator. -/
def hasSepB : List Char → Bool
  | c1 :: c2 :: rest => (c1 = ',' && c2 = ' ') || hasSepB (c2 :: rest)
  | _ => false

/-- No whitespace anywhere in the field. -/
def noWSB (cs : List Char) : Bool := cs.all (fun c => !isPySpace c)

/-- The list is empty or starts with whitespace (shape of the trailing
fields of a hash-code line after the original word). -/
def headSpaceB : List Char → Bool
  | [] => true
  | c :: _ => isPySpace c

/-- The extra portion of a well-formed candidate reply line: single spaces
between the original word, the count, the offset field and the candidate
text. -/
def mkExtra (o c f r : List Char) : List Char :=
  ' ' :: o ++ ' ' :: c ++ ' ' :: f ++ ' ' :: r

/-! ### Lifetime error counter: SpellChecker.open and check

open() ends by setting self.total_errors = 0; check() ends with
self.total_errors += len(report) when the read loop completes (an
exception inside the loop leaves the counter untouched).  The counter is
embedded as the state of a fold over the operations performed on one
SpellChecker instance. -/

/-- Number of verdicts a check() call adds to total_errors: the length of
the parsed report, or zero when parsing raises before the increment. -/
def report_len (lines : List (List Char)) : Nat :=
  match spell_check lines with
  | .ok r => r.length
  | .error _ => 0

/-- The operations on a SpellChecker instance that touch total_errors. -/
inductive SpellOp where
  | opn : SpellOp
  | chk : List (List Char) → SpellOp

/-- Effect of one operation on total_errors: open resets it to zero,
check adds the number of verdicts parsed. -/
def step_total (t : Nat) : SpellOp → Nat
  | .opn => 0
  | .chk lines => t + report_len lines

/-- total_errors after a sequence of operations starting from counter
value t. -/
def run_total (t : Nat) (ops : List SpellOp) : Nat :=
  ops.foldl step_total t

/-- Total number of verdicts ever parsed across all check() calls of the
sequence. -/
def lifetime_verdicts (ops : List SpellOp) : Nat :=
  (ops.map (fun op => match op with
    | SpellOp.opn => 0
    | SpellOp.chk lines => report_len lines)).sum

/-! ### Spec-side line pre-filter (C7)

The specification describes the exclude patterns as a line pre-filter:
one alternation regex with word-boundary semantics whose matches are
substituted by the empty string before the line is tokenized.  The
following definitions embed that description (for literal patterns) so it
can be compared with what set_ignore and _extract_words actually do; they
follow the wording of the spec, not the code. -/

/-- Regex word character (ASCII letters, digits, underscore). -/
def wordCharB (c : Char) : Bool := c.isAlphanum || c = '_'

/-- Word-character test seen by a boundary check at the edge of the
text. -/
def isWordOpt : Option Char → Bool
  | none => false
  | some c => wordCharB c

/-- Whether pattern p matches at the head of cs with a word boundary on
each side, prev being the character just before the current position. -/
def matchBoundaryAt (prev : Option Char) (p cs : List Char) : Bool :=
  match p with
  | [] => false
  | q :: _ =>
    p.isPrefixOf cs && (isWordOpt prev != wordCharB q) &&
      (match p.getLast? with
       | some z => wordCharB z != isWordOpt ((cs.drop p.length).head?)
       | none => false)

/-- Scan of the substitution: at each position, if some pattern matches
with word boundaries it is removed and the scan continues after it,
otherwise the character is kept. -/
def specSubAux : Nat → List (List Char) → Option Char → List Char → List Char
  | 0, _, _, cs => cs
  | _ + 1, _, _, [] => []
  | fuel + 1, pats, prev, c :: rest =>
    match pats.find? (fun p => matchBoundaryAt prev p (c :: rest)) with
    | some p => specSubAux fuel pats p.getLast? ((c :: rest).drop p.length)
    | none => c :: specSubAux fuel pats (some c) rest

/-- The spec-described pre-filter: substitute every word-bounded match of
a pattern with nothing, before tokenization. -/
def spec_pre_filter (pats : List String) (line : String) : String :=
  String.mk (specSubAux line.toList.length (pats.map (fun p => p.toList))
    none line.toList)

/-- The spec-described extraction: pre-filter every line, then tokenize
and record every token (no per-token filter). -/
def spec_extract_words (pats : List String) (lines : List String) : Loc :=
  extract_aux (fun _ => false) 1 (lines.map (spec_pre_filter pats)) []

/-- Index construction from already-tokenized lines (used to state what
the code actually does: filtering happens on tokens, after
tokenization). -/
def eft_aux : Nat → List (List String) → Loc → Loc
  | _, [], locs => locs
  | n, ws :: rest, locs =>
    eft_aux (n + 1) rest (ws.foldl (fun lo w => addWord lo w n) locs)

/-- Build the WordIndex from per-line token lists. -/
def extract_from_tokens (tokLists : List (List String)) : Loc :=
  eft_aux 1 tokLists []

end Kodespel

open Kodespel

/-- C1: for the input line "HTTPResponse getXMLElement", split_line returns
exactly ["HTTP", "Response", "get", "XML", "Element"]: the uppercase run
HTTPR is followed by a lowercase letter, so the acronym token is the run
minus its last letter, and that last uppercase letter starts the next
capitalized word. -/
theorem kodespel_C1 :
    split_line ("HTTPResponse getXMLElement") =
      ["HTTP", "Response", "get", "XML", "Element"] := by
  decide

/-- The C2 counterexample: split_line does NOT split the OReilly word at the
apostrophe; case 1 of _word_re matches the whole letters-apostrophe-letters
run as one token, so the output is not the claimed
["Mr", "O", "Reilly", "Sons", "Ltd"]. -/
theorem kodespel_C2_cex :
    split_line c2Input ≠ ["Mr", "O", "Reilly", "Sons", "Ltd"] := by
  decide

/-- C2 amended: for the claimed input line, split_line returns
["Mr", OReilly-with-apostrophe, "Sons", "Ltd"]: the apostrophe word is kept
as a single token by case 1 of _word_re. -/
theorem kodespel_C2 :
    split_line c2Input = ["Mr", oReilly, "Sons", "Ltd"] := by
  decide

/-! ### Dedup and submission order (C4) -/

lemma sent_addWord (locs : Loc) (w : String) (n : Nat) :
    sent_words (addWord locs w n) = insertKey (sent_words locs) w := by
  induction locs with
  | nil => simp [addWord, sent_words, insertKey]
  | cons kv rest ih =>
    obtain ⟨k, v⟩ := kv
    by_cases h : k = w
    · subst h
      simp [addWord, sent_words, insertKey]
    · simp only [addWord, if_neg h, sent_words, List.map_cons] at *
      rw [ih]
      by_cases hm : w ∈ List.map Prod.fst rest
      · rw [insertKey, insertKey, if_pos hm, if_pos (List.mem_cons_of_mem k hm)]
      · rw [insertKey, insertKey, if_neg hm, if_neg (by
          simp only [List.mem_cons, not_or]
          exact ⟨fun hw => h hw.symm, hm⟩)]
        simp

lemma sent_addLineTokens (ign : String → Bool) (ws : List String) :
    ∀ (locs : Loc) (n : Nat),
      sent_words (addLineTokens ign locs ws n) =
        (ws.filter (fun w => !ign w)).foldl insertKey (sent_words locs) := by
  induction ws with
  | nil => intro locs n; simp [addLineTokens]
  | cons w ws ih =>
    intro locs n
    by_cases hw : ign w
    · simp only [addLineTokens, List.foldl_cons, if_pos hw] at *
      rw [ih locs n]
      simp [List.filter_cons, hw]
    · simp only [addLineTokens, List.foldl_cons, if_neg hw] at *
      rw [ih (addWord locs w n) n]
      simp [List.filter_cons, hw, sent_addWord]

lemma sent_extract_aux (ign : String → Bool) (lines : List String) :
    ∀ (n : Nat) (locs : Loc),
      sent_words (extract_aux ign n lines locs) =
        ((lines.map (fun l => (split_line l).filter (fun w => !ign w))).flatten).foldl
          insertKey (sent_words locs) := by
  induction lines with
  | nil => intro n locs; simp [extract_aux]
  | cons l rest ih =>
    intro n locs
    simp only [extract_aux, List.map_cons, List.flatten_cons, List.foldl_append]
    rw [ih (n + 1) (addLineTokens ign locs (split_line l) n)]
    rw [sent_addLineTokens]

lemma mem_foldl_insertKey (w : String) :
    ∀ (ws ks : List String), w ∈ ws.foldl insertKey ks ↔ w ∈ ks ∨ w ∈ ws := by
  intro ws
  induction ws with
  | nil => intro ks; simp
  | cons a ws ih =>
    intro ks
    simp only [List.foldl_cons]
    rw [ih (insertKey ks a)]
    by_cases hm : a ∈ ks
    · simp only [insertKey, if_pos hm, List.mem_cons]
      constructor
      · rintro (h | h)
        · exact Or.inl h
        · exact Or.inr (Or.inr h)
      · rintro (h | h | h)
        · exact Or.inl h
        · exact Or.inl (h ▸ hm)
        · exact Or.inr h
    · simp only [insertKey, if_neg hm, List.mem_append, List.mem_singleton,
        List.mem_cons]
      tauto

lemma nodup_foldl_insertKey :
    ∀ (ws ks : List String), ks.Nodup → (ws.foldl insertKey ks).Nodup := by
  intro ws
  induction ws with
  | nil => intro ks h; simpa using h
  | cons a ws ih =>
    intro ks h
    simp only [List.foldl_cons]
    apply ih
    by_cases hm : a ∈ ks
    · simpa [insertKey, hm] using h
    · simp [insertKey, hm, List.nodup_append, h]

/-- C4: during a file check exactly one oracle request is sent per distinct
word text surviving the ignore filter, no matter how many times the word
occurs, and the submitted words are exactly the words of the file in order
of first appearance: the submission list is duplicate-free, lists a word
iff it occurs in the token stream of the file, and equals the
first-occurrence ordering of that stream. -/
theorem kodespel_C4 (ign : String → Bool) (lines : List String) :
    sent_words (extract_words ign lines) = firstOcc (token_stream ign lines)
      ∧ (sent_words (extract_words ign lines)).Nodup
      ∧ ∀ w, w ∈ sent_words (extract_words ign lines) ↔
          w ∈ token_stream ign lines := by
  have hmain : sent_words (extract_words ign lines) =
      firstOcc (token_stream ign lines) := by
    unfold extract_words firstOcc token_stream
    rw [sent_extract_aux]
    simp [sent_words]
  refine ⟨hmain, ?_, ?_⟩
  · rw [hmain]
    exact nodup_foldl_insertKey _ _ List.nodup_nil
  · intro w
    rw [hmain]
    unfold firstOcc
    rw [mem_foldl_insertKey]
    simp

/-! ### Case-fold suppression (C3) -/

/-- C3: a flagged word whose lowercased text equals one of its own
lowercased candidates is suppressed entirely, contributing nothing to the
output of _check and leaving the index untouched; a flagged word that is
not suppressed contributes one record per recorded line number (only the
first in unique mode), as usual. -/
theorem kodespel_C3 (u : Bool) (locs : Loc) (w : String) (gs : List String)
    (rest : Report) :
    (case_fold_hit w gs = true →
      check_words u ((w, gs) :: rest) locs = check_words u rest locs)
    ∧ (case_fold_hit w gs = false → ∀ L, lookupLoc locs w = some L →
      check_fold u [(w, gs)] locs =
        Except.ok ((if u then L.take 1 else L).map (fun n => (n, w, gs)),
          if u then updateLoc locs w (L.take 1) else locs)) := by
  constructor
  · intro h
    unfold check_words
    have hstep : check_step u locs (w, gs) = Except.ok ([], locs) := by
      simp [check_step, h]
    simp only [check_fold, hstep]
    cases hcf : check_fold u rest locs with
    | error u1 => rfl
    | ok p => simp
  · intro h L hL
    cases u with
    | false => simp [check_fold, check_step, h, hL]
    | true => simp [check_fold, check_step, h, hL]

/-- Witness for C3 at concrete inputs: the suppressed word json (candidate
JSON) leaves check unchanged, and the non-suppressed word typpo reports on
its recorded line. -/
theorem kodespel_C3_witness :
    check_words false [("json", ["JSON"])] [("other", [2])] =
        check_words false [] [("other", [2])]
      ∧ check_fold false [("typpo", ["typo"])] [("typpo", [3])] =
          Except.ok ([(3, "typpo", ["typo"])], [("typpo", [3])]) := by
  constructor
  · exact (kodespel_C3 false [("other", [2])] "json" ["JSON"] []).1 (by decide)
  · have h := (kodespel_C3 false [("typpo", [3])] "typpo" ["typo"] []).2
      (by decide) [3] (by decide)
    simpa using h

/-! ### Output ordering (C5) -/

lemma recLe_fst {a b : ErrRec} (h : recLe a b) : a.1 ≤ b.1 := by
  unfold recLe recKey at h
  rcases (Prod.Lex.le_iff _ _).mp h with h1 | ⟨h1, _⟩
  · exact le_of_lt h1
  · exact le_of_eq h1

/-- C5 amended: the record list returned by _check is sorted by the full
Python tuple order on (line number, word text, suggestion list); in
particular line numbers are non-decreasing.  Ties on the line number are
broken by comparing the word text (then the suggestion list), not by
discovery order. -/
theorem kodespel_C5 (u : Bool) (report : Report) (locs : Loc)
    (out : List ErrRec × Loc) (h : check_words u report locs = Except.ok out) :
    List.Sorted recLe out.1
      ∧ out.1.Pairwise (fun a b : ErrRec => a.1 ≤ b.1) := by
  unfold check_words at h
  cases hcf : check_fold u report locs with
  | error u1 => rw [hcf] at h; exact absurd h (by simp)
  | ok p =>
    rw [hcf] at h
    obtain ⟨rs, l1⟩ := p
    simp only [Except.ok.injEq] at h
    have h1 : out.1 = sortRecs rs := by rw [← h]
    have hs : List.Sorted recLe (sortRecs rs) :=
      List.sorted_insertionSort recLe rs
    rw [h1]
    exact ⟨hs, hs.imp (fun hab => recLe_fst hab)⟩

/-- Witness for C5 at a concrete successful check. -/
theorem kodespel_C5_witness :
    List.Sorted recLe ([((1 : Nat), "b", ([] : List String))])
      ∧ ([((1 : Nat), "b", ([] : List String))]).Pairwise
          (fun a b : ErrRec => a.1 ≤ b.1) :=
  kodespel_C5 false [("b", [])] [("b", [1])]
    ([(1, "b", [])], [("b", [1])]) (by rfl)

/-- The C5 counterexample: on a file whose line holds the flagged words zz
then aa (discovered in that order, reported by the oracle in that order),
the final records on the tied line number 1 come out in alphabetical
order aa, zz — not in first-discovery order zz, aa as claimed. -/
theorem kodespel_C5_cex :
    sent_words (extract_words (fun _ => false) ["zz aa"]) = ["zz", "aa"]
      ∧ check_words false [("zz", []), ("aa", [])]
          (extract_words (fun _ => false) ["zz aa"]) =
          Except.ok ([(1, "aa", []), (1, "zz", [])],
            [("zz", [1]), ("aa", [1])])
      ∧ ([(1, "aa", []), (1, "zz", [])] : List ErrRec) ≠
          [(1, "zz", []), (1, "aa", [])] :=
  ⟨by decide, by rfl, by decide⟩

/-! ### Index mutation in unique mode (C9) and KeyError partiality (C10) -/

lemma lookup_update_self (locs : Loc) (w : String) (v L : List Nat)
    (h : lookupLoc locs w = some L) :
    lookupLoc (updateLoc locs w v) w = some v := by
  induction locs with
  | nil => simp [lookupLoc] at h
  | cons kv rest ih =>
    obtain ⟨k, v0⟩ := kv
    by_cases hk : k = w
    · simp [updateLoc, lookupLoc, hk]
    · simp only [updateLoc, lookupLoc, if_neg hk] at *
      exact ih h

lemma lookup_update_other (locs : Loc) (w w' : String) (v : List Nat)
    (h : w' ≠ w) :
    lookupLoc (updateLoc locs w v) w' = lookupLoc locs w' := by
  induction locs with
  | nil => simp [updateLoc]
  | cons kv rest ih =>
    obtain ⟨k, v0⟩ := kv
    by_cases hk : k = w
    · subst hk
      simp only [updateLoc, if_pos rfl, lookupLoc]
      rw [if_neg (fun hh => h hh.symm), if_neg (fun hh => h hh.symm)]
    · simp only [updateLoc, if_neg hk, lookupLoc]
      by_cases hk' : k = w'
      · simp [hk']
      · simp [hk', ih]

lemma update_absent (locs : Loc) (w : String) (v : List Nat)
    (h : lookupLoc locs w = none) : updateLoc locs w v = locs := by
  induction locs with
  | nil => simp [updateLoc]
  | cons kv rest ih =>
    obtain ⟨k, v0⟩ := kv
    by_cases hk : k = w
    · simp [lookupLoc, hk] at h
    · simp only [lookupLoc, if_neg hk] at h
      simp [updateLoc, hk, ih h]

lemma lookup_update_none (locs : Loc) (w w' : String) (v : List Nat)
    (h : lookupLoc locs w' = none) :
    lookupLoc (updateLoc locs w v) w' = none := by
  by_cases hw : w' = w
  · subst hw
    rw [update_absent locs w' v h]
    exact h
  · rw [lookup_update_other locs w w' v hw]
    exact h

lemma lookup_update_isSome (locs : Loc) (w w' : String) (v : List Nat)
    (h : (lookupLoc locs w' ).isSome) :
    (lookupLoc (updateLoc locs w v) w' ).isSome := by
  by_cases hw : w' = w
  · subst hw
    cases hlk : lookupLoc locs w' with
    | none => rw [hlk] at h; simp at h
    | some L => rw [lookup_update_self locs w' v L hlk]; rfl
  · rw [lookup_update_other locs w w' v hw]
    exact h

lemma check_fold_cons (u : Bool) (e : String × List String) (rest : Report)
    (locs : Loc) :
    check_fold u (e :: rest) locs =
      match check_step u locs e with
      | .error u1 => .error u1
      | .ok (rs, locs1) =>
        match check_fold u rest locs1 with
        | .error u1 => .error u1
        | .ok (rs1, locs2) => .ok (rs ++ rs1, locs2) := rfl

lemma check_step_hit (u : Bool) (locs : Loc) (e : String × List String)
    (h : case_fold_hit e.1 e.2 = true) :
    check_step u locs e = Except.ok ([], locs) := by
  simp [check_step, h]

lemma check_step_miss_absent (u : Bool) (locs : Loc)
    (e : String × List String) (h : case_fold_hit e.1 e.2 = false)
    (h2 : lookupLoc locs e.1 = none) :
    check_step u locs e = Except.error () := by
  simp [check_step, h, h2]

lemma check_step_unique (locs : Loc) (e : String × List String)
    (L : List Nat) (h : case_fold_hit e.1 e.2 = false)
    (h2 : lookupLoc locs e.1 = some L) :
    check_step true locs e =
      Except.ok ((L.take 1).map (fun n => (n, e.1, e.2)),
        updateLoc locs e.1 (L.take 1)) := by
  simp [check_step, h, h2]

lemma check_step_all (locs : Loc) (e : String × List String)
    (L : List Nat) (h : case_fold_hit e.1 e.2 = false)
    (h2 : lookupLoc locs e.1 = some L) :
    check_step false locs e =
      Except.ok (L.map (fun n => (n, e.1, e.2)), locs) := by
  simp [check_step, h, h2]

lemma check_fold_cons_hit (u : Bool) (e : String × List String)
    (rest : Report) (locs : Loc) (h : case_fold_hit e.1 e.2 = true) :
    check_fold u (e :: rest) locs = check_fold u rest locs := by
  rw [check_fold_cons, check_step_hit u locs e h]
  show (match check_fold u rest locs with
    | Except.error u1 => Except.error u1
    | Except.ok (rs1, locs2) =>
        Except.ok (([] : List ErrRec) ++ rs1, locs2)) = _
  cases hrest : check_fold u rest locs with
  | error u1 => rfl
  | ok q =>
    obtain ⟨a, b⟩ := q
    simp

lemma check_fold_cons_absent (u : Bool) (e : String × List String)
    (rest : Report) (locs : Loc) (h : case_fold_hit e.1 e.2 = false)
    (h2 : lookupLoc locs e.1 = none) :
    check_fold u (e :: rest) locs = Except.error () := by
  rw [check_fold_cons, check_step_miss_absent u locs e h h2]

lemma check_fold_cons_unique_ok (e : String × List String) (rest : Report)
    (locs : Loc) (L : List Nat) (q : List ErrRec × Loc)
    (h : case_fold_hit e.1 e.2 = false) (h2 : lookupLoc locs e.1 = some L)
    (hrest : check_fold true rest (updateLoc locs e.1 (L.take 1)) =
      Except.ok q) :
    check_fold true (e :: rest) locs =
      Except.ok ((L.take 1).map (fun n => (n, e.1, e.2)) ++ q.1, q.2) := by
  rw [check_fold_cons, check_step_unique locs e L h h2]
  show (match check_fold true rest (updateLoc locs e.1 (L.take 1)) with
    | Except.error u1 => Except.error u1
    | Except.ok (rs1, locs2) =>
        Except.ok ((L.take 1).map (fun n => (n, e.1, e.2)) ++ rs1, locs2)) = _
  rw [hrest]

lemma check_fold_cons_unique_err (e : String × List String) (rest : Report)
    (locs : Loc) (L : List Nat) (u1 : Unit)
    (h : case_fold_hit e.1 e.2 = false) (h2 : lookupLoc locs e.1 = some L)
    (hrest : check_fold true rest (updateLoc locs e.1 (L.take 1)) =
      Except.error u1) :
    check_fold true (e :: rest) locs = Except.error u1 := by
  rw [check_fold_cons, check_step_unique locs e L h h2]
  show (match check_fold true rest (updateLoc locs e.1 (L.take 1)) with
    | Except.error u1 => Except.error u1
    | Except.ok (rs1, locs2) =>
        Except.ok ((L.take 1).map (fun n => (n, e.1, e.2)) ++ rs1, locs2)) = _
  rw [hrest]

lemma check_fold_cons_all_ok (e : String × List String) (rest : Report)
    (locs : Loc) (L : List Nat) (q : List ErrRec × Loc)
    (h : case_fold_hit e.1 e.2 = false) (h2 : lookupLoc locs e.1 = some L)
    (hrest : check_fold false rest locs = Except.ok q) :
    check_fold false (e :: rest) locs =
      Except.ok (L.map (fun n => (n, e.1, e.2)) ++ q.1, q.2) := by
  rw [check_fold_cons, check_step_all locs e L h h2]
  show (match check_fold false rest locs with
    | Except.error u1 => Except.error u1
    | Except.ok (rs1, locs2) =>
        Except.ok (L.map (fun n => (n, e.1, e.2)) ++ rs1, locs2)) = _
  rw [hrest]

lemma check_fold_cons_all_err (e : String × List String) (rest : Report)
    (locs : Loc) (L : List Nat) (u1 : Unit)
    (h : case_fold_hit e.1 e.2 = false) (h2 : lookupLoc locs e.1 = some L)
    (hrest : check_fold false rest locs = Except.error u1) :
    check_fold false (e :: rest) locs = Except.error u1 := by
  rw [check_fold_cons, check_step_all locs e L h h2]
  show (match check_fold false rest locs with
    | Except.error u1 => Except.error u1
    | Except.ok (rs1, locs2) =>
        Except.ok (L.map (fun n => (n, e.1, e.2)) ++ rs1, locs2)) = _
  rw [hrest]

/-- A locations binding already truncated to one line number is kept
unchanged by the rest of the unique-mode report loop: a later entry for the
same word truncates [l] to [l] again, suppressed entries skip the lookup,
and entries for other words leave the binding alone. -/
lemma check_fold_keep (rep : Report) :
    ∀ (locs : Loc) (w : String) (l : Nat) (res : List ErrRec × Loc),
      lookupLoc locs w = some [l] →
      check_fold true rep locs = Except.ok res →
      lookupLoc res.2 w = some [l] := by
  induction rep with
  | nil =>
    intro locs w l res hw hf
    simp only [check_fold, Except.ok.injEq] at hf
    subst hf
    exact hw
  | cons e rest ih =>
    intro locs w l res hw hf
    by_cases hhit : case_fold_hit e.1 e.2 = true
    · rw [check_fold_cons_hit true e rest locs hhit] at hf
      exact ih locs w l res hw hf
    · rw [Bool.not_eq_true] at hhit
      cases hlk : lookupLoc locs e.1 with
      | none =>
        rw [check_fold_cons_absent true e rest locs hhit hlk] at hf
        exact Except.noConfusion hf
      | some L =>
        have hw1 : lookupLoc (updateLoc locs e.1 (L.take 1)) w = some [l] := by
          by_cases hew : e.1 = w
          · have hL : L = [l] := by
              rw [hew] at hlk
              rw [hlk] at hw
              exact Option.some.inj hw
            subst hL
            rw [hew]
            exact lookup_update_self locs w _ [l] (hew ▸ hlk)
          · rw [lookup_update_other locs e.1 w _ (fun hh => hew hh.symm)]
            exact hw
        cases hrest : check_fold true rest (updateLoc locs e.1 (L.take 1)) with
        | error u1 =>
          rw [check_fold_cons_unique_err e rest locs L u1 hhit hlk hrest] at hf
          exact Except.noConfusion hf
        | ok q =>
          rw [check_fold_cons_unique_ok e rest locs L q hhit hlk hrest] at hf
          have h2 := Except.ok.inj hf
          rw [← h2]
          exact ih _ w l q hw1 hrest

/-- C9: in unique mode _check mutates the WordIndex passed to it: for a
flagged word that is not case-fold-suppressed and was recorded on line l
first and at least once more, after a successful _check the callers index
binds that word to [l] alone — the later recorded occurrences are deleted
in place, so the index no longer records every actual occurrence. -/
theorem kodespel_C9 (rep : Report) (locs : Loc) (w : String)
    (gs : List String) (l : Nat) (ls : List Nat) (res : List ErrRec × Loc)
    (hmem : (w, gs) ∈ rep) (hhit : case_fold_hit w gs = false)
    (hw : lookupLoc locs w = some (l :: ls))
    (hf : check_fold true rep locs = Except.ok res) :
    lookupLoc res.2 w = some [l] := by
  induction rep generalizing locs res with
  | nil => simp at hmem
  | cons e rest ih =>
    by_cases hhit1 : case_fold_hit e.1 e.2 = true
    · rw [check_fold_cons_hit true e rest locs hhit1] at hf
      have hmem1 : (w, gs) ∈ rest := by
        rcases List.mem_cons.mp hmem with he | hr
        · exfalso
          rw [← he] at hhit1
          rw [hhit] at hhit1
          exact Bool.false_ne_true hhit1
        · exact hr
      exact ih locs res hmem1 hw hf
    · rw [Bool.not_eq_true] at hhit1
      cases hlk : lookupLoc locs e.1 with
      | none =>
        rw [check_fold_cons_absent true e rest locs hhit1 hlk] at hf
        exact Except.noConfusion hf
      | some L =>
        cases hrest : check_fold true rest (updateLoc locs e.1 (L.take 1)) with
        | error u1 =>
          rw [check_fold_cons_unique_err e rest locs L u1 hhit1 hlk hrest] at hf
          exact Except.noConfusion hf
        | ok q =>
          rw [check_fold_cons_unique_ok e rest locs L q hhit1 hlk hrest] at hf
          have h2 := Except.ok.inj hf
          rw [← h2]
          by_cases hew : e.1 = w
          · have hL : L = l :: ls := by
              rw [hew] at hlk
              rw [hlk] at hw
              exact Option.some.inj hw
            have hlk2 : lookupLoc locs w = some (l :: ls) := by
              rw [← hew, hlk, hL]
            have hw1 : lookupLoc (updateLoc locs e.1 (L.take 1)) w =
                some [l] := by
              rw [hew, hL]
              exact lookup_update_self locs w _ (l :: ls) hlk2
            exact check_fold_keep rest _ w l q hw1 hrest
          · have hw1 : lookupLoc (updateLoc locs e.1 (L.take 1)) w =
                some (l :: ls) := by
              rw [lookup_update_other locs e.1 w _ (fun hh => hew hh.symm)]
              exact hw
            have hmem1 : (w, gs) ∈ rest := by
              rcases List.mem_cons.mp hmem with he | hr
              · exact absurd (congrArg Prod.fst he.symm) hew
              · exact hr
            exact ih _ q hmem1 hw1 hrest

/-- Witness for C9: the word ab recorded on lines 1 and 2 is truncated to
line 1 alone in the callers index by a unique-mode check. -/
theorem kodespel_C9_witness :
    lookupLoc (([(1, "ab", ([] : List String))],
      ([("ab", [1])] : Loc)) : List ErrRec × Loc).2 "ab" = some [1] :=
  kodespel_C9 [("ab", [])] [("ab", [1, 2])] "ab" [] 1 [2]
    ([(1, "ab", [])], [("ab", [1])]) (by decide) (by decide) (by decide)
    (by rfl)

/-- A report containing a non-suppressed entry whose word is not a key of
the index makes the report loop of _check raise KeyError. -/
lemma check_fold_missing_key (u : Bool) (rep : Report) :
    ∀ (locs : Loc) (w : String) (gs : List String),
      (w, gs) ∈ rep → case_fold_hit w gs = false →
      lookupLoc locs w = none →
      check_fold u rep locs = Except.error () := by
  induction rep with
  | nil => intro locs w gs hmem _ _; simp at hmem
  | cons e rest ih =>
    intro locs w gs hmem hhit hw
    by_cases hhit1 : case_fold_hit e.1 e.2 = true
    · rw [check_fold_cons_hit u e rest locs hhit1]
      have hmem1 : (w, gs) ∈ rest := by
        rcases List.mem_cons.mp hmem with he | hr
        · exfalso
          rw [← he] at hhit1
          rw [hhit] at hhit1
          exact Bool.false_ne_true hhit1
        · exact hr
      exact ih locs w gs hmem1 hhit hw
    · rw [Bool.not_eq_true] at hhit1
      cases hlk : lookupLoc locs e.1 with
      | none => exact check_fold_cons_absent u e rest locs hhit1 hlk
      | some L =>
        have hew : e.1 ≠ w := by
          intro hh
          rw [hh, hw] at hlk
          exact Option.noConfusion hlk
        have hmem1 : (w, gs) ∈ rest := by
          rcases List.mem_cons.mp hmem with he | hr
          · exact absurd (congrArg Prod.fst he.symm) hew
          · exact hr
        cases u with
        | true =>
          have hw1 : lookupLoc (updateLoc locs e.1 (L.take 1)) w = none := by
            rw [lookup_update_other locs e.1 w _ (fun hh => hew hh.symm)]
            exact hw
          exact check_fold_cons_unique_err e rest locs L () hhit1 hlk
            (ih _ w gs hmem1 hhit hw1)
        | false =>
          exact check_fold_cons_all_err e rest locs L () hhit1 hlk
            (ih locs w gs hmem1 hhit hw)

/-- When every non-suppressed flagged word of the report is a key of the
index, the report loop of _check completes without KeyError. -/
lemma check_fold_total (u : Bool) (rep : Report) :
    ∀ locs : Loc,
      (∀ e ∈ rep, case_fold_hit e.1 e.2 = false →
        (lookupLoc locs e.1).isSome) →
      ∃ p, check_fold u rep locs = Except.ok p := by
  induction rep with
  | nil => intro locs _; exact ⟨([], locs), rfl⟩
  | cons e rest ih =>
    intro locs hall
    by_cases hhit1 : case_fold_hit e.1 e.2 = true
    · obtain ⟨p, hp⟩ := ih locs (fun e' he' => hall e' (List.mem_cons_of_mem e he'))
      exact ⟨p, by rw [check_fold_cons_hit u e rest locs hhit1]; exact hp⟩
    · rw [Bool.not_eq_true] at hhit1
      have hsome : (lookupLoc locs e.1).isSome :=
        hall e (List.mem_cons_self e rest) hhit1
      obtain ⟨L, hlk⟩ := Option.isSome_iff_exists.mp hsome
      cases u with
      | true =>
        obtain ⟨q, hq⟩ := ih (updateLoc locs e.1 (L.take 1))
          (fun e' he' hh => lookup_update_isSome locs e.1 e'.1 _
            (hall e' (List.mem_cons_of_mem e he') hh))
        exact ⟨((L.take 1).map (fun n => (n, e.1, e.2)) ++ q.1, q.2),
          check_fold_cons_unique_ok e rest locs L q hhit1 hlk hq⟩
      | false =>
        obtain ⟨q, hq⟩ := ih locs
          (fun e' he' hh => hall e' (List.mem_cons_of_mem e he') hh)
        exact ⟨(L.map (fun n => (n, e.1, e.2)) ++ q.1, q.2),
          check_fold_cons_all_ok e rest locs L q hhit1 hlk hq⟩

/-- C10 amended: the lookup of a flagged word in the WordIndex is partial,
but only for words that survive case-fold suppression: if the report holds
a non-suppressed flagged word whose exact text is not a key of the index,
_check raises KeyError; absence of such verdicts guarantees _check
completes.  A suppressed verdict is skipped before the lookup and never
raises, even when its word is missing from the index. -/
theorem kodespel_C10 :
    (∀ (u : Bool) (rep : Report) (locs : Loc) (w : String)
        (gs : List String),
      (w, gs) ∈ rep → case_fold_hit w gs = false →
      lookupLoc locs w = none →
      check_fold u rep locs = Except.error ())
    ∧ (∀ (u : Bool) (rep : Report) (locs : Loc),
      (∀ e ∈ rep, case_fold_hit e.1 e.2 = false →
        (lookupLoc locs e.1).isSome) →
      ∃ p, check_fold u rep locs = Except.ok p) :=
  ⟨fun u rep locs w gs => check_fold_missing_key u rep locs w gs,
   fun u rep locs => check_fold_total u rep locs⟩

/-- Witness for C10 at concrete inputs: the non-suppressed missing word qq
raises KeyError, and a report whose flagged word rr is a key completes. -/
theorem kodespel_C10_witness :
    check_fold false [("qq", [])] [] = Except.error ()
      ∧ ∃ p, check_fold false [("rr", ["a"])] [("rr", [4])] =
          Except.ok p :=
  ⟨kodespel_C10.1 false [("qq", [])] [] "qq" [] (by decide) (by decide)
      (by rfl),
   kodespel_C10.2 false [("rr", ["a"])] [("rr", [4])] (by decide)⟩

/-- The C10 counterexample: the oracle reports the flagged word json, whose
text is not a key of the (empty) WordIndex, yet _check does not raise
KeyError — the verdict is case-fold-suppressed and skipped before the
lookup, so the check completes normally. -/
theorem kodespel_C10_cex :
    check_words false [("json", ["JSON"])] [] =
      Except.ok ([], []) := by
  rfl

/-! ### The total_errors counter (C8) -/

/-- The C8 counterexample: after open, a check that parses one verdict,
and a second open, total_errors is 0 while the lifetime number of verdicts
parsed by the instance is 1 — open() resets the counter to zero, so it is
not a lifetime counter. -/
theorem kodespel_C8_cex :
    run_total 0 [SpellOp.opn, SpellOp.chk [("# word 0\n").toList],
        SpellOp.opn] = 0
      ∧ lifetime_verdicts [SpellOp.opn, SpellOp.chk [("# word 0\n").toList],
          SpellOp.opn] = 1
      ∧ (0 : Nat) ≠ 1 :=
  ⟨by decide, by decide, by decide⟩

/-- C8 amended: total_errors counts the verdicts parsed since the most
recent open(): open() resets it to zero and every completed check() adds
the number of verdicts it parsed, so after an open() followed by any
sequence of check() calls the counter equals the sum of their report
lengths, independent of whatever value it held before. -/
theorem kodespel_C8 (t : Nat) (bs : List (List (List Char))) :
    run_total t (SpellOp.opn :: bs.map SpellOp.chk) =
      (bs.map report_len).sum := by
  have h : ∀ (bs1 : List (List (List Char))) (t0 : Nat),
      (bs1.map SpellOp.chk).foldl step_total t0 =
        t0 + (bs1.map report_len).sum := by
    intro bs1
    induction bs1 with
    | nil => intro t0; simp
    | cons b rest ih =>
      intro t0
      simp only [List.map_cons, List.foldl_cons, step_total, List.sum_cons]
      rw [ih]
      omega
  show (SpellOp.opn :: bs.map SpellOp.chk).foldl step_total t = _
  simp only [List.foldl_cons]
  rw [show step_total t SpellOp.opn = 0 from rfl, h bs 0]
  omega

/-! ### Oracle reply parsing (C6) -/

lemma dropWhile_space_cons (a : Char) (t : List Char)
    (ha : isPySpace a = false) :
    (a :: t).dropWhile isPySpace = a :: t := by
  simp [List.dropWhile_cons, ha]

lemma takeWhile_no_ws (f rest : List Char) (hf : noWSB f = true)
    (hr : headSpaceB rest = true) :
    (f ++ rest).takeWhile (fun c => !isPySpace c) = f := by
  induction f with
  | nil =>
    cases rest with
    | nil => rfl
    | cons a t =>
      simp only [headSpaceB] at hr
      simp [List.takeWhile_cons, hr]
  | cons x xs ih =>
    simp only [noWSB, List.all_cons, Bool.and_eq_true] at hf
    simp only [List.cons_append, List.takeWhile_cons, hf.1, Bool.not_false,
      if_true]
    rw [ih hf.2]

lemma dropWhile_no_ws (f rest : List Char) (hf : noWSB f = true)
    (hr : headSpaceB rest = true) :
    (f ++ rest).dropWhile (fun c => !isPySpace c) = rest := by
  induction f with
  | nil =>
    cases rest with
    | nil => rfl
    | cons a t =>
      simp only [headSpaceB] at hr
      simp [List.dropWhile_cons, hr]
  | cons x xs ih =>
    simp only [noWSB, List.all_cons, Bool.and_eq_true] at hf
    simp only [List.cons_append, List.dropWhile_cons, hf.1, Bool.not_false,
      if_true]
    exact ih hf.2

lemma py_split_ws_step (ms : Nat) (x : Char) (xs rest : List Char)
    (hf : noWSB (x :: xs) = true) :
    py_split_ws (ms + 1) (' ' :: ((x :: xs) ++ ' ' :: rest)) =
      (x :: xs) :: py_split_ws ms (' ' :: rest) := by
  have hx : isPySpace x = false := by
    simp only [noWSB, List.all_cons, Bool.and_eq_true] at hf
    simpa using hf.1
  have hdw : (' ' :: ((x :: xs) ++ ' ' :: rest)).dropWhile isPySpace =
      (x :: xs) ++ ' ' :: rest := by
    rw [List.dropWhile_cons]
    simp only [show isPySpace ' ' = true from rfl, if_true]
    exact dropWhile_space_cons x (xs ++ ' ' :: rest) hx
  simp only [py_split_ws, hdw]
  rw [takeWhile_no_ws (x :: xs) (' ' :: rest) hf rfl,
    dropWhile_no_ws (x :: xs) (' ' :: rest) hf rfl]
  simp

lemma py_split_ws_last (a : Char) (t : List Char)
    (ha : isPySpace a = false) :
    py_split_ws 0 (' ' :: a :: t) = [a :: t] := by
  have hdw : (' ' :: a :: t).dropWhile isPySpace = a :: t := by
    rw [List.dropWhile_cons]
    simp only [show isPySpace ' ' = true from rfl, if_true]
    exact dropWhile_space_cons a t ha
  simp [py_split_ws, hdw]

lemma py_split_sep_aux_irrel :
    ∀ (f1 f2 : Nat) (cs : List Char), cs.length ≤ f1 → cs.length ≤ f2 →
      py_split_sep_aux f1 cs = py_split_sep_aux f2 cs := by
  intro f1
  induction f1 with
  | zero =>
    intro f2 cs h1 _
    have hnil : cs = [] := List.length_eq_zero.mp (Nat.le_zero.mp h1)
    subst hnil
    cases f2 <;> rfl
  | succ f ih =>
    intro f2 cs h1 h2
    cases cs with
    | nil => cases f2 <;> rfl
    | cons c rest =>
      cases f2 with
      | zero => simp at h2
      | succ f2p =>
        simp only [List.length_cons, Nat.succ_le_succ_iff] at h1 h2
        simp only [py_split_sep_aux]
        have hd : (rest.drop 1).length ≤ f := by
          rw [List.length_drop]; omega
        have hd2 : (rest.drop 1).length ≤ f2p := by
          rw [List.length_drop]; omega
        rw [ih f2p (rest.drop 1) hd hd2, ih f2p rest h1 h2]

lemma split_sep_aux_no :
    ∀ (fuel : Nat) (g : List Char), g.length ≤ fuel → hasSepB g = false →
      py_split_sep_aux fuel g = [g] := by
  intro fuel
  induction fuel with
  | zero =>
    intro g h1 _
    have hnil : g = [] := List.length_eq_zero.mp (Nat.le_zero.mp h1)
    subst hnil
    rfl
  | succ f ih =>
    intro g h1 hsep
    cases g with
    | nil => rfl
    | cons c rest =>
      simp only [List.length_cons, Nat.succ_le_succ_iff] at h1
      have hcond : (c = ',' && rest.head? = some ' ') = false := by
        cases rest with
        | nil => simp
        | cons c2 t =>
          simp only [hasSepB, Bool.or_eq_false_iff] at hsep
          have h12 := hsep.1
          simp only [List.head?_cons, Option.some.injEq]
          by_cases hc : c = ','
          · by_cases hc2 : c2 = ' '
            · rw [hc, hc2] at h12
              simp at h12
            · simp [hc2]
          · simp [hc]
      have hrest : hasSepB rest = false := by
        cases rest with
        | nil => rfl
        | cons c2 t =>
          simp only [hasSepB, Bool.or_eq_false_iff] at hsep
          exact hsep.2
      simp only [py_split_sep_aux, hcond, Bool.false_eq_true, if_false]
      rw [ih rest h1 hrest]

lemma split_sep_no (g : List Char) (h : hasSepB g = false) :
    py_split_sep g = [g] :=
  split_sep_aux_no g.length g le_rfl h

lemma split_sep_aux_bound :
    ∀ (g : List Char) (fuel : Nat) (t : List Char),
      (g ++ ',' :: ' ' :: t).length ≤ fuel → hasSepB g = false →
      py_split_sep_aux fuel (g ++ ',' :: ' ' :: t) = g :: py_split_sep t := by
  intro g
  induction g with
  | nil =>
    intro fuel t hlen _
    cases fuel with
    | zero => simp at hlen
    | succ f =>
      simp only [List.length_cons, List.nil_append, Nat.succ_le_succ_iff]
        at hlen
      simp only [List.nil_append, py_split_sep_aux, List.head?_cons,
        Option.some.injEq]
      have hcond : (',' = ',' && (' ' = ' ' : Bool)) = true := by decide
      simp only [decide_True, Bool.and_self, if_true]
      have hd : ((' ' :: t).drop 1) = t := by simp
      rw [hd]
      rw [py_split_sep_aux_irrel f t.length t (by omega) le_rfl]
      rfl
  | cons c g1 ih =>
    intro fuel t hlen hsep
    cases fuel with
    | zero => simp at hlen
    | succ f =>
      simp only [List.cons_append, List.length_cons, Nat.succ_le_succ_iff]
        at hlen
      simp only [List.cons_append, py_split_sep_aux, List.append_eq]
      have hcond : (c = ',' && (g1 ++ ',' :: ' ' :: t).head? = some ' ') =
          false := by
        cases g1 with
        | nil =>
          simp only [List.nil_append, List.head?_cons, Option.some.injEq]
          simp
        | cons c2 t2 =>
          simp only [hasSepB, Bool.or_eq_false_iff] at hsep
          have h12 := hsep.1
          simp only [List.cons_append, List.head?_cons, Option.some.injEq]
          by_cases hc : c = ','
          · by_cases hc2 : c2 = ' '
            · rw [hc, hc2] at h12
              simp at h12
            · simp [hc2]
          · simp [hc]
      have hrest : hasSepB g1 = false := by
        cases g1 with
        | nil => rfl
        | cons c2 t2 =>
          simp only [hasSepB, Bool.or_eq_false_iff] at hsep
          exact hsep.2
      rw [hcond]
      simp only [Bool.false_eq_true, if_false]
      rw [ih f t hlen hrest]

lemma split_sep_bound (g t : List Char) (h : hasSepB g = false) :
    py_split_sep (g ++ ',' :: ' ' :: t) = g :: py_split_sep t :=
  split_sep_aux_bound g (g ++ ',' :: ' ' :: t).length t le_rfl h

lemma split_interSep :
    ∀ gs : List (List Char), gs ≠ [] → (∀ g ∈ gs, hasSepB g = false) →
      py_split_sep (interSep gs) = gs := by
  intro gs
  induction gs with
  | nil => intro h _; exact absurd rfl h
  | cons g gs1 ih =>
    intro _ hall
    cases gs1 with
    | nil =>
      show py_split_sep (interSep [g]) = [g]
      rw [show interSep [g] = g from rfl]
      exact split_sep_no g (hall g (List.mem_cons_self g []))
    | cons g2 gs2 =>
      rw [show interSep (g :: g2 :: gs2) =
        g ++ ',' :: ' ' :: interSep (g2 :: gs2) from rfl]
      rw [split_sep_bound g (interSep (g2 :: gs2))
        (hall g (List.mem_cons_self g (g2 :: gs2)))]
      rw [ih (List.cons_ne_nil g2 gs2)
        (fun g3 hg3 => hall g3 (List.mem_cons_of_mem g hg3))]

lemma pyStrip1_line (c : Char) (x : List Char) :
    pyStrip1 (c :: (x ++ ['\n'])) = x := by
  simp [pyStrip1]

lemma py_is_int_digits (d : Char) (ds : List Char)
    (h2 : (d :: ds).all Char.isDigit = true) : py_is_int (d :: ds) = true := by
  have hd : d.isDigit = true := by
    simp only [List.all_cons, Bool.and_eq_true] at h2
    exact h2.1
  have hplus : (d = '+' || d = '-') = false := by
    by_cases hp : d = '+'
    · subst hp
      exact absurd hd (by decide)
    · by_cases hm : d = '-'
      · subst hm
        exact absurd hd (by decide)
      · simp [hp, hm]
  simp [py_is_int, hplus, h2]

lemma digit_not_space (c : Char) (h : c.isDigit = true) :
    isPySpace c = false := by
  by_contra hns
  have hs : isPySpace c = true := by
    cases hps : isPySpace c
    · exact absurd hps hns
    · rfl
  simp only [isPySpace, Bool.or_eq_true, decide_eq_true_eq] at hs
  rcases hs with ((((h1 | h1) | h1) | h1) | h1) | h1 <;> subst h1 <;>
    exact absurd h (by decide)

lemma py_split_ws_step2 (ms : Nat) (x : Char) (xs rest : List Char)
    (hf : noWSB (x :: xs) = true) :
    py_split_ws (ms + 1) (' ' :: x :: (xs ++ ' ' :: rest)) =
      (x :: xs) :: py_split_ws ms (' ' :: rest) :=
  py_split_ws_step ms x xs rest hf

lemma py_split_ws3 (x : Char) (xs : List Char) (y : Char) (ys : List Char)
    (z : Char) (zs : List Char) (a : Char) (t : List Char)
    (hwo : noWSB (x :: xs) = true) (hwc : noWSB (y :: ys) = true)
    (hwf : noWSB (z :: zs) = true) (ha : isPySpace a = false) :
    py_split_ws 3 (mkExtra (x :: xs) (y :: ys) (z :: zs) (a :: t)) =
      [x :: xs, y :: ys, z :: zs, a :: t] := by
  simp only [mkExtra, List.cons_append, List.append_assoc]
  have h1 := py_split_ws_step2 2 x xs
    (y :: (ys ++ ' ' :: (z :: (zs ++ ' ' :: (a :: t))))) hwo
  have h2 := py_split_ws_step2 1 y ys (z :: (zs ++ ' ' :: (a :: t))) hwc
  have h3 := py_split_ws_step2 0 z zs (a :: t) hwf
  have h4 := py_split_ws_last a t ha
  norm_num at h1 h2 h3
  rw [h2] at h1
  rw [h3] at h1
  rw [h4] at h1
  exact h1

lemma parse_line_amp (x : Char) (xs : List Char) (y : Char) (ys : List Char)
    (z : Char) (zs : List Char) (a : Char) (t : List Char)
    (hwo : noWSB (x :: xs) = true)
    (hcd : (y :: ys).all Char.isDigit = true)
    (hwf : noWSB (z :: zs) = true) (ha : isPySpace a = false) :
    parse_line ('&' ::
        (mkExtra (x :: xs) (y :: ys) (z :: zs) (a :: t) ++ ['\n'])) =
      Except.ok (some (x :: xs, py_split_sep (a :: t))) := by
  have hwc : noWSB (y :: ys) = true := by
    simp only [noWSB, List.all_eq_true] at *
    intro c hc
    rw [digit_not_space c (hcd c hc)]
    rfl
  simp only [parse_line, pyStrip1_line]
  rw [py_split_ws3 x xs y ys z zs a t hwo hwc hwf ha]
  simp [py_is_int_digits y ys hcd]

lemma parse_line_hash (x : Char) (xs r : List Char)
    (hwo : noWSB (x :: xs) = true) (hr : headSpaceB r = true) :
    parse_line ('#' :: ((' ' :: ((x :: xs) ++ r)) ++ ['\n'])) =
      Except.ok (some (x :: xs, [])) := by
  have hx : isPySpace x = false := by
    simp only [noWSB, List.all_cons, Bool.and_eq_true] at hwo
    simpa using hwo.1
  simp only [parse_line, pyStrip1_line]
  have hc1 : (('#' = '&' || ('#' = '?' : Bool)) : Bool) = false := by decide
  have hdw : ((' ' :: ((x :: xs) ++ r)).dropWhile isPySpace) =
      (x :: xs) ++ r := by
    rw [List.dropWhile_cons]
    simp only [show isPySpace ' ' = true from rfl, if_true]
    rw [List.cons_append]
    exact dropWhile_space_cons x (xs ++ r) hx
  simp only [hc1, Bool.false_eq_true, if_false]
  simp only [show (('#' : Char) = '#') = True from by simp, if_true, hdw]
  rw [takeWhile_no_ws (x :: xs) r hwo hr]
  simp

lemma parse_line_other (ch : Char) (rest : List Char)
    (h1 : ch ≠ '&') (h2 : ch ≠ '?') (h3 : ch ≠ '#') :
    parse_line (ch :: rest) = Except.ok none := by
  simp [parse_line, h1, h2, h3]

lemma parse_line_codes (rest : List Char) :
    parse_line ('&' :: rest) = parse_line ('?' :: rest) := by
  rfl

lemma spell_check_cons_none (line : List Char) (rest : List (List Char))
    (hne : line ≠ []) (h : parse_line line = Except.ok none) :
    spell_check (line :: rest) = spell_check rest := by
  have hni : line.isEmpty = false := by
    cases line with
    | nil => exact absurd rfl hne
    | cons c t => rfl
  simp only [spell_check, hni, Bool.false_eq_true, if_false, h]
  cases hs : spell_check rest with
  | error u => rfl
  | ok vs => rfl

lemma spell_check_cons_some (line : List Char) (rest : List (List Char))
    (v : List Char × List (List Char))
    (hne : line ≠ []) (h : parse_line line = Except.ok (some v)) :
    spell_check (line :: rest) =
      Except.map (fun vs => v :: vs) (spell_check rest) := by
  have hni : line.isEmpty = false := by
    cases line with
    | nil => exact absurd rfl hne
    | cons c t => rfl
  simp only [spell_check, hni, Bool.false_eq_true, if_false, h]
  cases hs : spell_check rest with
  | error u => rfl
  | ok vs => rfl

/-- C6: parsing of oracle reply lines by SpellChecker.check.  The
ampersand and question-mark codes are handled identically (first
conjunct); a well-formed candidate line made of the code, the original
word, a numeric count, a colon-terminated offset field and the candidate
text yields the verdict (original, candidate text split on the exact
comma-space separator), the count and offset fields being discarded
(second conjunct), and that split recovers exactly the separator-free
candidate words the text was joined from (third conjunct); a hash line
yields (original, empty list), whatever trails the original word (fourth
conjunct); a line with any other first character yields no verdict (fifth
conjunct); and the report collects parsed verdicts in order, ignored lines
contributing nothing (last two conjuncts). -/
theorem kodespel_C6 :
    (∀ rest : List Char, parse_line ('&' :: rest) = parse_line ('?' :: rest))
    ∧ (∀ (o cnt off : List Char) (a : Char) (t : List Char),
        o ≠ [] → noWSB o = true → cnt ≠ [] →
        cnt.all Char.isDigit = true → off ≠ [] → noWSB off = true →
        isPySpace a = false →
        parse_line ('&' :: (mkExtra o cnt off (a :: t) ++ ['\n'])) =
          Except.ok (some (o, py_split_sep (a :: t))))
    ∧ (∀ gs : List (List Char), gs ≠ [] →
        (∀ g ∈ gs, hasSepB g = false) →
        py_split_sep (interSep gs) = gs)
    ∧ (∀ (o r : List Char), o ≠ [] → noWSB o = true →
        headSpaceB r = true →
        parse_line ('#' :: ((' ' :: (o ++ r)) ++ ['\n'])) =
          Except.ok (some (o, [])))
    ∧ (∀ (ch : Char) (rest : List Char), ch ≠ '&' → ch ≠ '?' → ch ≠ '#' →
        parse_line (ch :: rest) = Except.ok none)
    ∧ (∀ (line : List Char) (rest : List (List Char)), line ≠ [] →
        parse_line line = Except.ok none →
        spell_check (line :: rest) = spell_check rest)
    ∧ (∀ (line : List Char) (rest : List (List Char))
        (v : List Char × List (List Char)), line ≠ [] →
        parse_line line = Except.ok (some v) →
        spell_check (line :: rest) =
          Except.map (fun vs => v :: vs) (spell_check rest)) := by
  refine ⟨parse_line_codes, ?_, split_interSep, ?_, parse_line_other,
    spell_check_cons_none, spell_check_cons_some⟩
  · intro o cnt off a t ho hwo hc hcd hf hwf ha
    cases o with
    | nil => exact absurd rfl ho
    | cons x xs =>
      cases cnt with
      | nil => exact absurd rfl hc
      | cons y ys =>
        cases off with
        | nil => exact absurd rfl hf
        | cons z zs =>
          exact parse_line_amp x xs y ys z zs a t hwo hcd hwf ha
  · intro o r ho hwo hr
    cases o with
    | nil => exact absurd rfl ho
    | cons x xs => exact parse_line_hash x xs r hwo hr

/-- Witness for C6 at concrete reply lines. -/
theorem kodespel_C6_witness :
    parse_line (("& wird 1 0: word, ward\n").toList) =
      Except.ok (some (("wird").toList, [("word").toList, ("ward").toList]))
    ∧ parse_line (("# wird 0\n").toList) =
        Except.ok (some (("wird").toList, []))
    ∧ parse_line (("@ junk\n").toList) = Except.ok none
    ∧ spell_check [("@ junk\n").toList] = spell_check []
    ∧ parse_line ('&' :: ("x\n").toList) =
        parse_line ('?' :: ("x\n").toList) := by
  obtain ⟨hcodes, hamp, hinter, hhash, hother, hnone, _⟩ := kodespel_C6
  have hoth : parse_line (("@ junk\n").toList) = Except.ok none := by
    rw [show (("@ junk\n").toList) = '@' :: ((" junk\n").toList) from by
      decide]
    exact hother '@' ((" junk\n").toList) (by decide) (by decide) (by decide)
  refine ⟨?_, ?_, hoth, ?_, hcodes (("x\n").toList)⟩
  · have h2 := hamp (("wird").toList) (("1").toList) (("0:").toList) 'w'
      (("ord, ward").toList) (by decide) (by decide) (by decide) (by decide)
      (by decide) (by decide) (by decide)
    have h3 := hinter [("word").toList, ("ward").toList] (by decide)
      (by decide)
    rw [show (("& wird 1 0: word, ward\n").toList) =
      '&' :: (mkExtra (("wird").toList) (("1").toList) (("0:").toList)
        ('w' :: ("ord, ward").toList) ++ ['\n']) from by decide]
    rw [h2]
    rw [show ('w' :: ("ord, ward").toList) =
      interSep [("word").toList, ("ward").toList] from by decide]
    rw [h3]
  · have h4 := hhash (("wird").toList) ((" 0").toList) (by decide)
      (by decide) (by decide)
    rw [show (("# wird 0\n").toList) =
      '#' :: ((' ' :: (("wird").toList ++ (" 0").toList)) ++ ['\n']) from by
      decide]
    exact h4
  · exact hnone (("@ junk\n").toList) [] (by decide) hoth

/-! ### Exclude patterns (C7) -/

lemma addLineTokens_filter (ign : String → Bool) (ws : List String) :
    ∀ (locs : Loc) (n : Nat),
      addLineTokens ign locs ws n =
        (ws.filter (fun w => !ign w)).foldl
          (fun lo w => addWord lo w n) locs := by
  induction ws with
  | nil => intro locs n; rfl
  | cons w ws ih =>
    intro locs n
    by_cases hw : ign w
    · simp only [addLineTokens, List.foldl_cons, if_pos hw] at *
      rw [ih locs n]
      simp [List.filter_cons, hw]
    · simp only [addLineTokens, List.foldl_cons, if_neg hw] at *
      rw [ih (addWord locs w n) n]
      simp [List.filter_cons, hw]

/-- The C7 counterexample: with the exclude pattern foo and the input line
holding the single identifier foobar, the code drops the whole token
foobar (set_ignore matches patterns anywhere inside each token, after
tokenization), while the spec-described pre-filter (word-bounded
substitution on the line before tokenization) leaves foobar intact and
records it — so the claim that exclusion is a line pre-filter with
word-boundary semantics does not describe the code. -/
theorem kodespel_C7_cex :
    extract_words (ignoreOf ["foo"]) ["foobar"] = []
      ∧ spec_extract_words ["foo"] ["foobar"] = [("foobar", [1])]
      ∧ ([] : Loc) ≠ [("foobar", [1])] :=
  ⟨by decide, by decide, by decide⟩

/-- C7 amended: the ignore patterns are compiled once into a single
case-insensitive alternation, but applied to each token after
tokenization, not to the line text: a token is dropped entirely when the
alternation matches anywhere inside it, and only the surviving tokens
enter the WordIndex — equivalently, extraction equals indexing the
token-filtered lines, and no indexed word matches the ignore predicate. -/
theorem kodespel_C7 (ign : String → Bool) (lines : List String) :
    extract_words ign lines =
      extract_from_tokens
        (lines.map (fun l => (split_line l).filter (fun w => !ign w)))
      ∧ ∀ w, w ∈ sent_words (extract_words ign lines) → ign w = false := by
  constructor
  · suffices h : ∀ (ls : List String) (n : Nat) (locs : Loc),
        extract_aux ign n ls locs =
          eft_aux n
            (ls.map (fun l => (split_line l).filter (fun w => !ign w)))
            locs by
      exact h lines 1 []
    intro ls
    induction ls with
    | nil => intro n locs; rfl
    | cons l rest ih =>
      intro n locs
      simp only [extract_aux, List.map_cons, eft_aux]
      rw [addLineTokens_filter]
      exact ih (n + 1) _
  · intro w hw
    rw [extract_words, sent_extract_aux] at hw
    rw [mem_foldl_insertKey] at hw
    rcases hw with hw | hw
    · simp [sent_words] at hw
    · obtain ⟨l1, hl1, hwl⟩ := List.mem_flatten.mp hw
      obtain ⟨l0, _, rfl⟩ := List.mem_map.mp hl1
      have := (List.mem_filter.mp hwl).2
      simpa using this

/-- Witness for C7 at a concrete input: the file with the one line
ab cd, checked with the exclude pattern zz, indexes exactly its two
tokens, and the indexed word ab does not match the pattern. -/
theorem kodespel_C7_witness :
    extract_words (ignoreOf ["zz"]) ["ab cd"] =
      extract_from_tokens
        ([("ab cd" : String)].map (fun l =>
          (split_line l).filter (fun w => !(ignoreOf ["zz"]) w)))
      ∧ ignoreOf ["zz"] "ab" = false :=
  ⟨(kodespel_C7 (ignoreOf ["zz"]) ["ab cd"]).1,
   (kodespel_C7 (ignoreOf ["zz"]) ["ab cd"]).2 "ab" (by decide)⟩
